import Mathlib

/-!
Verification of the Montgomery-arithmetic core of the num-modular crate.

The Rust sources are shallowly embedded: width-W machine integers are
represented by natural numbers, with an explicit `% 2 ^ W` wherever the
machine wraps (casts `as Self`, `wrapping_mul`, `wrapping_sub`,
`wrapping_neg`, overflow of the double-width adder).  Operations that can
panic (division by a zero modulus, the modulus-mismatch check) return
`Option`, `none` marking the panic.  The engine is one family of
definitions parameterised by the width `W`; the four Rust impls are the
instances `W = 8, 16, 32, 64`, which differ only in their `neginv`
bootstrap, embedded separately below.
-/

set_option maxHeartbeats 1000000

/-- Entry i contains the inverse of 2i+1 modulo 2^8, copied from
`BINVERT_TABLE` in monty.rs. -/
def BINVERT_TABLE : List Nat :=
  [0x01, 0xAB, 0xCD, 0xB7, 0x39, 0xA3, 0xC5, 0xEF,
   0xF1, 0x1B, 0x3D, 0xA7, 0x29, 0x13, 0x35, 0xDF,
   0xE1, 0x8B, 0xAD, 0x97, 0x19, 0x83, 0xA5, 0xCF,
   0xD1, 0xFB, 0x1D, 0x87, 0x09, 0xF3, 0x15, 0xBF,
   0xC1, 0x6B, 0x8D, 0x77, 0xF9, 0x63, 0x85, 0xAF,
   0xB1, 0xDB, 0xFD, 0x67, 0xE9, 0xD3, 0xF5, 0x9F,
   0xA1, 0x4B, 0x6D, 0x57, 0xD9, 0x43, 0x65, 0x8F,
   0x91, 0xBB, 0xDD, 0x47, 0xC9, 0xB3, 0xD5, 0x7F,
   0x81, 0x2B, 0x4D, 0x37, 0xB9, 0x23, 0x45, 0x6F,
   0x71, 0x9B, 0xBD, 0x27, 0xA9, 0x93, 0xB5, 0x5F,
   0x61, 0x0B, 0x2D, 0x17, 0x99, 0x03, 0x25, 0x4F,
   0x51, 0x7B, 0x9D, 0x07, 0x89, 0x73, 0x95, 0x3F,
   0x41, 0xEB, 0x0D, 0xF7, 0x79, 0xE3, 0x05, 0x2F,
   0x31, 0x5B, 0x7D, 0xE7, 0x69, 0x53, 0x75, 0x1F,
   0x21, 0xCB, 0xED, 0xD7, 0x59, 0xC3, 0xE5, 0x0F,
   0x11, 0x3B, 0x5D, 0xC7, 0x49, 0x33, 0x55, 0xFF]

/-- Width-W wrapping multiplication, `wrapping_mul`. -/
def wmul (W a b : Nat) : Nat := a * b % 2 ^ W

/-- Width-W wrapping subtraction, `wrapping_sub` (two's complement). -/
def wsub (W a b : Nat) : Nat := (a + 2 ^ W - b % 2 ^ W) % 2 ^ W

/-- Width-W wrapping negation, `wrapping_neg`. -/
def wneg (W a : Nat) : Nat := (2 ^ W - a % 2 ^ W) % 2 ^ W

/-- The table lookup `BINVERT_TABLE[((m >> 1) & 0x7F) as usize]` shared by
all four `neginv` impls. -/
def binvertEntry (m : Nat) : Nat := BINVERT_TABLE.getD (m / 2 % 128) 0

namespace Montgomery

/-- `neginv` for u8: `BINVERT_TABLE[((m >> 1) & 0x7F) as usize].wrapping_neg()`. -/
def neginv8 (m : Nat) : Nat := wneg 8 (binvertEntry m)

/-- `neginv` for u16: one negation step on the 8-bit seed,
`i.wrapping_mul(m).wrapping_sub(2).wrapping_mul(i)`. -/
def neginv16 (m : Nat) : Nat :=
  wmul 16 (wsub 16 (wmul 16 (binvertEntry m) m) 2) (binvertEntry m)

/-- `neginv` for u32: one Hensel lift `i = 2.wrapping_sub(i*m)*i` on the
8-bit seed, then the negation step. -/
def neginv32 (m : Nat) : Nat :=
  let i0 := binvertEntry m
  let i1 := wmul 32 (wsub 32 2 (wmul 32 i0 m)) i0
  wmul 32 (wsub 32 (wmul 32 i1 m) 2) i1

/-- `neginv` for u64: two Hensel lifts on the 8-bit seed, then the
negation step. -/
def neginv64 (m : Nat) : Nat :=
  let i0 := binvertEntry m
  let i1 := wmul 64 (wsub 64 2 (wmul 64 i0 m)) i0
  let i2 := wmul 64 (wsub 64 2 (wmul 64 i1 m)) i1
  wmul 64 (wsub 64 (wmul 64 i2 m) 2) i2

/-- Dispatch of `neginv` on the width, selecting the matching Rust impl. -/
def neginvOf (W m : Nat) : Nat :=
  if W = 8 then neginv8 m
  else if W = 16 then neginv16 m
  else if W = 32 then neginv32 m
  else neginv64 m

/-- `transform`: `(((target as Double) << BITS) % (m as Double)) as Self`.
The shift lives in the 2W-bit double width, the final cast truncates to W
bits. -/
def transform (W target m : Nat) : Nat :=
  target * 2 ^ W % 2 ^ (2 * W) % m % 2 ^ W

/-- `reduce` (REDC).  `tm` is the wrapping product of the low word of
`monty` with `minv`; `s` is the mathematical value of the double-width sum
whose low 2W bits the machine keeps, so the `overflowing_add` flag is
`2 ^ (2 * W) ≤ s`; on overflow the code adds `m.wrapping_neg()`; the final
conditional subtraction is taken verbatim. -/
def reduce (W monty m minv : Nat) : Nat :=
  let tm := monty % 2 ^ W * minv % 2 ^ W
  let s := monty + tm * m
  let t1 := s % 2 ^ (2 * W) / 2 ^ W
  let t2 := if 2 ^ (2 * W) ≤ s then (t1 + wneg W m) % 2 ^ W else t1
  if m ≤ t2 then t2 - m else t2

/-- `add`: widen, sum, subtract `m` when the sum exceeds it (`sum > m`),
truncate back to width W. -/
def add (W lhs rhs m : Nat) : Nat :=
  (if m < lhs + rhs then lhs + rhs - m else lhs + rhs) % 2 ^ W

/-- `sub`: `if lhs >= rhs { lhs - rhs } else { m - (rhs - lhs) }`. -/
def sub (lhs rhs m : Nat) : Nat :=
  if rhs ≤ lhs then lhs - rhs else m - (rhs - lhs)

/-- `neg`: zero stays zero, otherwise `m - monty`. -/
def neg (monty m : Nat) : Nat :=
  if monty = 0 then 0 else m - monty

/-- `mul`: REDC of the full double-width product. -/
def mul (W lhs rhs m minv : Nat) : Nat :=
  reduce W (lhs * rhs) m minv

/-- The square-and-multiply loop of `pow`: `result` starts at the integer
literal 1, the low exponent bit (`exp & 1`) selects a multiply, then the
base is squared and the exponent shifted right. -/
def powLoop (W multi exp result m minv : Nat) : Nat :=
  if exp = 0 then result
  else
    powLoop W (mul W multi multi m minv) (exp / 2)
      (if exp % 2 = 1 then mul W result multi m minv else result) m minv
termination_by exp
decreasing_by exact Nat.div_lt_self (Nat.pos_of_ne_zero (by assumption)) one_lt_two

/-- `pow`: exponents 1 and 2 are special-cased, everything else runs the
loop with accumulator 1. -/
def pow (W base exp m minv : Nat) : Nat :=
  if exp = 1 then base
  else if exp = 2 then mul W base base m minv
  else powLoop W base exp 1 m minv

end Montgomery

/-- The `MontgomeryInt` handle: Montgomery-form residue `a` plus the
shared `Rc<(m, minv)>` context.  `ctxId` stands for the allocation address
of the `Rc`, so `Rc::ptr_eq` is equality of `ctxId`. -/
structure MontgomeryInt where
  a : Nat
  m : Nat
  minv : Nat
  ctxId : Nat
deriving DecidableEq

namespace MontgomeryInt

/-- `check_modulus_eq`: returns `true` when the function panics.  The
source tests structural inequality of the moduli only inside the branch
where the two `Rc` pointers are equal. -/
def check_modulus_eq (ptrEq : Bool) (m1 m2 : Nat) : Bool :=
  ptrEq && !(m1 == m2)

/-- `MontgomeryInt::new`: computes `neginv` and `transform` with no
validation of `m`.  The only way it can fail is the `% 0` inside
`transform` when `m = 0`, a division-by-zero panic, modelled as `none`. -/
def new (W n m ctxId : Nat) : Option MontgomeryInt :=
  if m = 0 then none
  else some ⟨Montgomery.transform W n m, m, Montgomery.neginvOf W m, ctxId⟩

/-- `Add for MontgomeryInt`: modulus check, then the engine `add`;
`none` models the panic path. -/
def hadd (W : Nat) (x y : MontgomeryInt) : Option MontgomeryInt :=
  if check_modulus_eq (x.ctxId == y.ctxId) x.m y.m then none
  else some ⟨Montgomery.add W x.a y.a x.m, x.m, x.minv, x.ctxId⟩

/-- `Sub for MontgomeryInt`. -/
def hsub (x y : MontgomeryInt) : Option MontgomeryInt :=
  if check_modulus_eq (x.ctxId == y.ctxId) x.m y.m then none
  else some ⟨Montgomery.sub x.a y.a x.m, x.m, x.minv, x.ctxId⟩

/-- `Mul for MontgomeryInt`. -/
def hmul (W : Nat) (x y : MontgomeryInt) : Option MontgomeryInt :=
  if check_modulus_eq (x.ctxId == y.ctxId) x.m y.m then none
  else some ⟨Montgomery.mul W x.a y.a x.m x.minv, x.m, x.minv, x.ctxId⟩

/-- `PartialEq for MontgomeryInt`: modulus check, then comparison of the
raw Montgomery representations. -/
def heq (x y : MontgomeryInt) : Option Bool :=
  if check_modulus_eq (x.ctxId == y.ctxId) x.m y.m then none
  else some (x.a == y.a)

/-- `residue()`: REDC of the widened representation. -/
def residue (W : Nat) (x : MontgomeryInt) : Nat :=
  Montgomery.reduce W x.a x.m x.minv

end MontgomeryInt

/-- Modelled from the spec: the `jacobi` loop of section 4.4 (its
implementation lives in the `prim` module, which is not among the given
sources).  The inner even-stripping while-loop is the `a % 2 = 0` branch,
one halving per recursive call; the odd branch performs the
swap-with-reciprocity-flip followed by the reduction `a ← a mod n`. -/
def jacobiLoop (a n : Nat) (result : Int) : Int :=
  if a = 0 then (if n = 1 then result else 0)
  else if a % 2 = 0 then
    jacobiLoop (a / 2) n (if n % 8 = 3 ∨ n % 8 = 5 then -result else result)
  else
    jacobiLoop (n % a) a (if a % 4 = 3 ∧ n % 4 = 3 then -result else result)
termination_by a
decreasing_by
  · exact Nat.div_lt_self (Nat.pos_of_ne_zero (by assumption)) one_lt_two
  · exact Nat.mod_lt _ (Nat.pos_of_ne_zero (by assumption))

/-- Modelled from the spec: `jacobi(a, n)` fails with `InvalidModulus`
when `n` is even or zero (modelled as `none`), otherwise reduces `a` mod
`n` and runs the loop with `result = 1`. -/
def jacobi (a n : Nat) : Option Int :=
  if n % 2 = 0 then none else some (jacobiLoop (a % n) n 1)

/-! ## Arithmetic helpers -/

/-- The seed table is correct: entry i inverts 2i+1 modulo 256. -/
theorem binvert_table_correct :
    ∀ i, i < 128 → BINVERT_TABLE.getD i 0 * (2 * i + 1) % 256 = 1 := by
  decide

/-- An odd modulus is coprime to the auxiliary modulus R. -/
theorem gcd_two_pow_eq_one (W m : Nat) (hm : m % 2 = 1) :
    Nat.gcd m (2 ^ W) = 1 :=
  Nat.Coprime.pow_right W (Nat.coprime_two_right.mpr (Nat.odd_iff.mpr hm))

/-- Montgomery representations congruent after scaling by R are equal when
both are normalized below an odd modulus. -/
theorem cancel_R (W m r v : Nat) (hm : m % 2 = 1) (hr : r < m) (hv : v < m)
    (h : r * 2 ^ W ≡ v * 2 ^ W [MOD m]) : r = v := by
  have h2 := Nat.ModEq.cancel_right_of_coprime (gcd_two_pow_eq_one W m hm) h
  have h3 : r % m = v % m := h2
  rwa [Nat.mod_eq_of_lt hr, Nat.mod_eq_of_lt hv] at h3

/-- Correctness of REDC: for odd `1 < m < R`, any `minv` with
`m * minv ≡ R - 1 (mod R)` and any double-width `t < m * R`, the result is
normalized below `m` and scales back to `t` modulo `m`. -/
theorem reduce_spec (W t m minv : Nat) (hodd : m % 2 = 1) (hm : 1 < m)
    (hmR : m < 2 ^ W) (hminv : m * minv % 2 ^ W = 2 ^ W - 1)
    (ht : t < m * 2 ^ W) :
    Montgomery.reduce W t m minv < m ∧
      Montgomery.reduce W t m minv * 2 ^ W ≡ t [MOD m] := by
  have hRpos : 0 < 2 ^ W := Nat.pos_pow_of_pos W (by omega)
  have hR1 : 1 < 2 ^ W := by omega
  dsimp only [Montgomery.reduce]
  set tm := t % 2 ^ W * minv % 2 ^ W with htm
  have htmR : tm < 2 ^ W := Nat.mod_lt _ hRpos
  set s := t + tm * m with hs
  -- R divides s
  have hcong1 : tm ≡ t * minv [MOD 2 ^ W] := by
    calc tm ≡ t % 2 ^ W * minv [MOD 2 ^ W] := Nat.mod_modEq _ _
    _ ≡ t * minv [MOD 2 ^ W] := (Nat.mod_modEq t (2 ^ W)).mul_right minv
  have hmm0 : 1 + m * minv ≡ 0 [MOD 2 ^ W] := by
    have h1 : (1 + m * minv) % 2 ^ W = (1 % 2 ^ W + m * minv % 2 ^ W) % 2 ^ W :=
      Nat.add_mod 1 (m * minv) (2 ^ W)
    have h2 : 1 % 2 ^ W = 1 := Nat.mod_eq_of_lt hR1
    show (1 + m * minv) % 2 ^ W = 0 % 2 ^ W
    rw [h1, h2, hminv]
    have h3 : 1 + (2 ^ W - 1) = 2 ^ W := by omega
    rw [h3, Nat.mod_self, Nat.zero_mod]
  have hdvd : 2 ^ W ∣ s := by
    have h4 : s ≡ t + t * minv * m [MOD 2 ^ W] :=
      (Nat.ModEq.refl t).add (hcong1.mul_right m)
    have h5 : t + t * minv * m = t * (1 + m * minv) := by ring
    have h6 : t * (1 + m * minv) ≡ t * 0 [MOD 2 ^ W] := hmm0.mul_left t
    have h7 : s ≡ 0 [MOD 2 ^ W] := by
      rw [h5] at h4
      simpa using h4.trans h6
    exact (Nat.modEq_zero_iff_dvd).mp h7
  obtain ⟨q, hq⟩ := hdvd
  -- bounds on the quotient
  have hsum_lt : s < 2 ^ W * (2 * m) := by
    have h8 : tm * m < 2 ^ W * m := mul_lt_mul_of_pos_right htmR (by omega)
    calc s < m * 2 ^ W + 2 ^ W * m := by omega
    _ = 2 ^ W * (2 * m) := by ring
  have hq2m : q < 2 * m := by
    have := hq ▸ hsum_lt
    exact Nat.lt_of_mul_lt_mul_left this
  -- the quotient scales back to t
  have hcongq : q * 2 ^ W ≡ t [MOD m] := by
    show q * 2 ^ W % m = t % m
    have h9 : q * 2 ^ W = t + tm * m := by rw [mul_comm]; omega
    rw [h9, Nat.add_mul_mod_self_right]
  have h2W : 2 ^ (2 * W) = 2 ^ W * 2 ^ W := by rw [two_mul, pow_add]
  -- the final conditional subtraction, shared by the two branches
  have hfinal : ∀ u, u < 2 * m → u * 2 ^ W ≡ t [MOD m] →
      (if m ≤ u then u - m else u) < m ∧
        (if m ≤ u then u - m else u) * 2 ^ W ≡ t [MOD m] := by
    intro u hu hut
    by_cases hcase : m ≤ u
    · rw [if_pos hcase]
      refine ⟨by omega, ?_⟩
      have h10 : (u - m) * 2 ^ W ≡ (u - m) * 2 ^ W + 2 ^ W * m [MOD m] :=
        (Nat.add_mul_mod_self_right _ _ _).symm
      have h11 : (u - m) * 2 ^ W + 2 ^ W * m = u * 2 ^ W := by
        have h12 : (u - m) * 2 ^ W + 2 ^ W * m = (u - m + m) * 2 ^ W := by ring
        rw [h12, Nat.sub_add_cancel hcase]
      exact h10.trans (h11 ▸ hut)
    · rw [if_neg hcase]
      exact ⟨by omega, hut⟩
  by_cases hov : 2 ^ (2 * W) ≤ s
  · -- overflow branch
    have hqR : 2 ^ W ≤ q := by
      have h13 : 2 ^ W * 2 ^ W ≤ 2 ^ W * q := by rw [← h2W, ← hq]; exact hov
      exact Nat.le_of_mul_le_mul_left h13 hRpos
    obtain ⟨d, hd⟩ : ∃ d, q = 2 ^ W + d := ⟨q - 2 ^ W, by omega⟩
    have hslt2 : s < 2 * 2 ^ (2 * W) := by
      have h14 : q < 2 * 2 ^ W := by omega
      have h15 : 2 ^ W * q < 2 ^ W * (2 * 2 ^ W) :=
        mul_lt_mul_of_pos_left h14 hRpos
      calc s = 2 ^ W * q := hq
      _ < 2 ^ W * (2 * 2 ^ W) := h15
      _ = 2 * 2 ^ (2 * W) := by rw [h2W]; ring
    have hsmod : s % 2 ^ (2 * W) = 2 ^ W * d := by
      rw [Nat.mod_eq_sub_mod hov]
      have h16 : s - 2 ^ (2 * W) = 2 ^ W * d := by
        apply Nat.sub_eq_of_eq_add
        rw [hq, hd, h2W]; ring
      rw [h16]
      apply Nat.mod_eq_of_lt
      omega
    have ht1 : s % 2 ^ (2 * W) / 2 ^ W = d := by
      rw [hsmod, Nat.mul_div_cancel_left _ hRpos]
    have hwneg : wneg W m = 2 ^ W - m := by
      unfold wneg
      rw [Nat.mod_eq_of_lt hmR, Nat.mod_eq_of_lt (by omega)]
    have ht2 : (s % 2 ^ (2 * W) / 2 ^ W + wneg W m) % 2 ^ W = q - m := by
      rw [ht1, hwneg]
      have h17 : d + (2 ^ W - m) = q - m := by omega
      rw [h17]
      exact Nat.mod_eq_of_lt (by omega)
    rw [if_pos hov, ht2]
    exact hfinal (q - m) (by omega) (by
      have h18 : (q - m) * 2 ^ W ≡ (q - m) * 2 ^ W + 2 ^ W * m [MOD m] :=
        (Nat.add_mul_mod_self_right _ _ _).symm
      have h19 : (q - m) * 2 ^ W + 2 ^ W * m = q * 2 ^ W := by
        have h20 : (q - m) * 2 ^ W + 2 ^ W * m = (q - m + m) * 2 ^ W := by ring
        rw [h20, Nat.sub_add_cancel (by omega)]
      exact h18.trans (h19 ▸ hcongq))
  · -- no overflow
    have hslt : s < 2 ^ (2 * W) := by omega
    have ht1 : s % 2 ^ (2 * W) / 2 ^ W = q := by
      rw [Nat.mod_eq_of_lt hslt, hq, Nat.mul_div_cancel_left _ hRpos]
    rw [if_neg hov, ht1]
    exact hfinal q hq2m hcongq

/-! ## Correctness of neginv at each width -/

/-- Reduction modulo n is the identity on congruence classes. -/
theorem int_mod_modeq (x n : ℤ) : x % n ≡ x [ZMOD n] :=
  Int.emod_emod_of_dvd x dvd_rfl

/-- A wrapping product is congruent to the true product. -/
theorem wmul_modeq (W a b : Nat) :
    ((wmul W a b : Nat) : ℤ) ≡ (a : ℤ) * b [ZMOD (2 : ℤ) ^ W] := by
  have h : ((wmul W a b : Nat) : ℤ) = ((a : ℤ) * b) % (2 : ℤ) ^ W := by
    unfold wmul; push_cast; ring_nf
  rw [h]
  exact int_mod_modeq _ _

/-- A wrapping difference is congruent to the true difference. -/
theorem wsub_modeq (W a b : Nat) :
    ((wsub W a b : Nat) : ℤ) ≡ (a : ℤ) - b [ZMOD (2 : ℤ) ^ W] := by
  have hpos : 0 < 2 ^ W := Nat.pos_pow_of_pos W (by omega)
  have h1 : b % 2 ^ W ≤ a + 2 ^ W := by
    have := Nat.mod_lt b hpos; omega
  have h2 : ((wsub W a b : Nat) : ℤ) =
      ((a : ℤ) + (2 : ℤ) ^ W - (b : ℤ) % (2 : ℤ) ^ W) % (2 : ℤ) ^ W := by
    unfold wsub
    rw [Int.natCast_mod, Nat.cast_sub h1]
    push_cast
    ring_nf
  rw [h2]
  have hb : (b : ℤ) % (2 : ℤ) ^ W ≡ (b : ℤ) [ZMOD (2 : ℤ) ^ W] := int_mod_modeq _ _
  have hR : ((2 : ℤ) ^ W : ℤ) ≡ 0 [ZMOD (2 : ℤ) ^ W] :=
    Int.modEq_iff_dvd.mpr (by simp)
  have h3 : (a : ℤ) + (2 : ℤ) ^ W - (b : ℤ) % (2 : ℤ) ^ W ≡ (a : ℤ) + 0 - (b : ℤ)
      [ZMOD (2 : ℤ) ^ W] := ((Int.ModEq.refl _).add hR).sub hb
  have h4 : (a : ℤ) + 0 - (b : ℤ) = (a : ℤ) - b := by ring
  exact (int_mod_modeq _ _).trans (h4 ▸ h3)

/-- Wrapping negation through `wsub` from zero. -/
theorem wneg_eq_wsub (W a : Nat) : wneg W a = wsub W 0 a := by
  unfold wneg wsub; rw [Nat.zero_add]

/-- A wrapping negation is congruent to the true negation. -/
theorem wneg_modeq (W a : Nat) :
    ((wneg W a : Nat) : ℤ) ≡ -(a : ℤ) [ZMOD (2 : ℤ) ^ W] := by
  rw [wneg_eq_wsub]
  simpa using wsub_modeq W 0 a

/-- The table entry inverts an odd m modulo 256. -/
theorem binvert_seed (m : Nat) (hm : m % 2 = 1) :
    ((binvertEntry m : Nat) : ℤ) * m ≡ 1 [ZMOD (2 : ℤ) ^ 8] := by
  have hj : m / 2 % 128 < 128 := Nat.mod_lt _ (by omega)
  have htab := binvert_table_correct (m / 2 % 128) hj
  have hm256 : m % 256 = 2 * (m / 2 % 128) + 1 := by omega
  have hnat : binvertEntry m * m ≡ 1 [MOD 256] := by
    have h1 : binvertEntry m * m ≡ binvertEntry m * (m % 256) [MOD 256] :=
      (Nat.mod_modEq m 256).symm.mul_left _
    have h2 : binvertEntry m * (m % 256) ≡ 1 [MOD 256] := by
      show binvertEntry m * (m % 256) % 256 = 1 % 256
      rw [hm256]
      exact htab
    exact h1.trans h2
  have hcast := (Int.natCast_modEq_iff (n := 256)).mpr hnat
  have h3 : ((binvertEntry m * m : ℕ) : ℤ) ≡ ((1 : ℕ) : ℤ) [ZMOD ((256 : ℕ) : ℤ)] := hcast
  have h4 : ((256 : ℕ) : ℤ) = (2 : ℤ) ^ 8 := by norm_num
  rw [h4] at h3
  have h5 : ((binvertEntry m * m : ℕ) : ℤ) = ((binvertEntry m : Nat) : ℤ) * m := by push_cast; ring
  rw [h5] at h3
  simpa using h3

/-- The composite wrapping expression of a Hensel lift is congruent to its
mathematical value. -/
theorem lift_modeq (W i m : Nat) :
    ((wmul W (wsub W 2 (wmul W i m)) i : Nat) : ℤ) ≡
      (2 - (i : ℤ) * m) * i [ZMOD (2 : ℤ) ^ W] := by
  have h1 := wmul_modeq W (wsub W 2 (wmul W i m)) i
  have h2 := wsub_modeq W 2 (wmul W i m)
  have h3 := wmul_modeq W i m
  have h4 : ((wsub W 2 (wmul W i m) : Nat) : ℤ) ≡ 2 - (i : ℤ) * m [ZMOD (2 : ℤ) ^ W] := by
    have h5 : (((2 : ℕ) : ℤ)) = (2 : ℤ) := by norm_num
    exact (h2.trans (((h5 ▸ Int.ModEq.refl ((2 : ℕ) : ℤ))).sub h3))
  exact h1.trans (h4.mul_right _)

/-- The composite wrapping expression of the final negation step is
congruent to its mathematical value. -/
theorem negstep_modeq (W i m : Nat) :
    ((wmul W (wsub W (wmul W i m) 2) i : Nat) : ℤ) ≡
      ((i : ℤ) * m - 2) * i [ZMOD (2 : ℤ) ^ W] := by
  have h1 := wmul_modeq W (wsub W (wmul W i m) 2) i
  have h2 := wsub_modeq W (wmul W i m) 2
  have h3 := wmul_modeq W i m
  have h4 : ((wsub W (wmul W i m) 2 : Nat) : ℤ) ≡ (i : ℤ) * m - 2 [ZMOD (2 : ℤ) ^ W] := by
    have h5 : (((2 : ℕ) : ℤ)) = (2 : ℤ) := by norm_num
    exact h2.trans (h3.sub (h5 ▸ Int.ModEq.refl ((2 : ℕ) : ℤ)))
  exact h1.trans (h4.mul_right _)

/-- Hensel lifting: a Newton step doubles the number of correct bits of a
binary inverse. -/
theorem hensel_step {k K : ℕ} (hkK : 2 * k ≤ K) (i mz j : ℤ)
    (hi : i * mz ≡ 1 [ZMOD (2 : ℤ) ^ k])
    (hj : j ≡ (2 - i * mz) * i [ZMOD (2 : ℤ) ^ K]) :
    j * mz ≡ 1 [ZMOD (2 : ℤ) ^ (2 * k)] := by
  have hdvd : ((2 : ℤ) ^ (2 * k)) ∣ (2 : ℤ) ^ K := pow_dvd_pow 2 hkK
  have h1 : j * mz ≡ (2 - i * mz) * i * mz [ZMOD (2 : ℤ) ^ (2 * k)] :=
    (hj.of_dvd hdvd).mul_right mz
  have h2 : (2 : ℤ) ^ k ∣ i * mz - 1 := Int.ModEq.dvd hi.symm
  have h3 : (2 : ℤ) ^ (2 * k) ∣ (i * mz - 1) ^ 2 := by
    have h4 := pow_dvd_pow_of_dvd h2 2
    rwa [← pow_mul, mul_comm k 2] at h4
  have h5 : (2 - i * mz) * i * mz ≡ 1 [ZMOD (2 : ℤ) ^ (2 * k)] := by
    rw [Int.modEq_iff_dvd]
    have h6 : (1 : ℤ) - (2 - i * mz) * i * mz = (i * mz - 1) ^ 2 := by ring
    rw [h6]
    exact h3
  exact h1.trans h5

/-- The final step of `neginv` turns a binary inverse on half the bits
into the negated inverse on all the bits. -/
theorem neg_final {k K : ℕ} (hkK : 2 * k ≤ K) (i mz j : ℤ)
    (hi : i * mz ≡ 1 [ZMOD (2 : ℤ) ^ k])
    (hj : j ≡ (i * mz - 2) * i [ZMOD (2 : ℤ) ^ K]) :
    j * mz ≡ -1 [ZMOD (2 : ℤ) ^ (2 * k)] := by
  have hdvd : ((2 : ℤ) ^ (2 * k)) ∣ (2 : ℤ) ^ K := pow_dvd_pow 2 hkK
  have h1 : j * mz ≡ (i * mz - 2) * i * mz [ZMOD (2 : ℤ) ^ (2 * k)] :=
    (hj.of_dvd hdvd).mul_right mz
  have h2 : (2 : ℤ) ^ k ∣ i * mz - 1 := Int.ModEq.dvd hi.symm
  have h3 : (2 : ℤ) ^ (2 * k) ∣ (i * mz - 1) ^ 2 := by
    have h4 := pow_dvd_pow_of_dvd h2 2
    rwa [← pow_mul, mul_comm k 2] at h4
  have h5 : (i * mz - 2) * i * mz ≡ -1 [ZMOD (2 : ℤ) ^ (2 * k)] := by
    rw [Int.modEq_iff_dvd]
    have h6 : (-1 : ℤ) - (i * mz - 2) * i * mz = -((i * mz - 1) ^ 2) := by ring
    rw [h6]
    exact Dvd.dvd.neg_right h3
  exact h1.trans h5

/-- An integer congruent to -1 modulo R reduces to R - 1. -/
theorem modeq_neg_one_to_nat (W x : Nat)
    (h : (x : ℤ) ≡ -1 [ZMOD (2 : ℤ) ^ W]) : x % 2 ^ W = 2 ^ W - 1 := by
  have hpos : 0 < 2 ^ W := Nat.pos_pow_of_pos W (by omega)
  have h1 : (-1 : ℤ) ≡ ((2 ^ W - 1 : ℕ) : ℤ) [ZMOD (2 : ℤ) ^ W] := by
    rw [Int.modEq_iff_dvd, Nat.cast_sub (by omega : 1 ≤ 2 ^ W)]
    push_cast
    have h2 : (2 : ℤ) ^ W - 1 - -1 = (2 : ℤ) ^ W := by ring
    rw [h2]
  have h3 : (x : ℤ) ≡ ((2 ^ W - 1 : ℕ) : ℤ) [ZMOD ((2 ^ W : ℕ) : ℤ)] := by
    have h4 : ((2 ^ W : ℕ) : ℤ) = (2 : ℤ) ^ W := by push_cast; ring
    rw [h4]
    exact h.trans h1
  have h5 : x ≡ 2 ^ W - 1 [MOD 2 ^ W] := Int.natCast_modEq_iff.mp h3
  have h6 : x % 2 ^ W = (2 ^ W - 1) % 2 ^ W := h5
  rw [h6, Nat.mod_eq_of_lt (by omega)]

/-- `neginv` for u8 negates the inverse of an odd m modulo 2^8. -/
theorem neginv8_spec (m : Nat) (hm : m % 2 = 1) :
    m * Montgomery.neginv8 m % 2 ^ 8 = 2 ^ 8 - 1 := by
  have hseed := binvert_seed m hm
  have hj : ((Montgomery.neginv8 m : Nat) : ℤ) ≡ -((binvertEntry m : Nat) : ℤ)
      [ZMOD (2 : ℤ) ^ 8] := wneg_modeq 8 _
  apply modeq_neg_one_to_nat
  have h1 : ((m * Montgomery.neginv8 m : ℕ) : ℤ) =
      ((Montgomery.neginv8 m : ℕ) : ℤ) * m := by push_cast; ring
  rw [h1]
  calc ((Montgomery.neginv8 m : ℕ) : ℤ) * m
      ≡ -((binvertEntry m : Nat) : ℤ) * m [ZMOD (2 : ℤ) ^ 8] := hj.mul_right _
    _ = -(((binvertEntry m : Nat) : ℤ) * m) := by ring
    _ ≡ -1 [ZMOD (2 : ℤ) ^ 8] := hseed.neg

/-- `neginv` for u16 negates the inverse of an odd m modulo 2^16. -/
theorem neginv16_spec (m : Nat) (hm : m % 2 = 1) :
    m * Montgomery.neginv16 m % 2 ^ 16 = 2 ^ 16 - 1 := by
  have hseed := binvert_seed m hm
  have hj := negstep_modeq 16 (binvertEntry m) m
  apply modeq_neg_one_to_nat
  have h1 : ((m * Montgomery.neginv16 m : ℕ) : ℤ) =
      ((Montgomery.neginv16 m : ℕ) : ℤ) * m := by push_cast; ring
  rw [h1]
  exact neg_final (k := 8) (K := 16) (by omega) _ _ _ hseed hj

/-- `neginv` for u32 negates the inverse of an odd m modulo 2^32. -/
theorem neginv32_spec (m : Nat) (hm : m % 2 = 1) :
    m * Montgomery.neginv32 m % 2 ^ 32 = 2 ^ 32 - 1 := by
  have hseed := binvert_seed m hm
  have hi1 : ((wmul 32 (wsub 32 2 (wmul 32 (binvertEntry m) m)) (binvertEntry m) : Nat) : ℤ) *
      m ≡ 1 [ZMOD (2 : ℤ) ^ 16] :=
    hensel_step (k := 8) (K := 32) (by omega) _ _ _ hseed (lift_modeq 32 (binvertEntry m) m)
  have hj := negstep_modeq 32 (wmul 32 (wsub 32 2 (wmul 32 (binvertEntry m) m)) (binvertEntry m)) m
  apply modeq_neg_one_to_nat
  have h1 : ((m * Montgomery.neginv32 m : ℕ) : ℤ) =
      ((Montgomery.neginv32 m : ℕ) : ℤ) * m := by push_cast; ring
  rw [h1]
  exact neg_final (k := 16) (K := 32) (by omega) _ _ _ hi1 hj

/-- `neginv` for u64 negates the inverse of an odd m modulo 2^64. -/
theorem neginv64_spec (m : Nat) (hm : m % 2 = 1) :
    m * Montgomery.neginv64 m % 2 ^ 64 = 2 ^ 64 - 1 := by
  have hseed := binvert_seed m hm
  have hi1 : ((wmul 64 (wsub 64 2 (wmul 64 (binvertEntry m) m)) (binvertEntry m) : Nat) : ℤ) *
      m ≡ 1 [ZMOD (2 : ℤ) ^ 16] :=
    hensel_step (k := 8) (K := 64) (by omega) _ _ _ hseed (lift_modeq 64 (binvertEntry m) m)
  have hi2 : ((wmul 64 (wsub 64 2 (wmul 64
      (wmul 64 (wsub 64 2 (wmul 64 (binvertEntry m) m)) (binvertEntry m)) m))
      (wmul 64 (wsub 64 2 (wmul 64 (binvertEntry m) m)) (binvertEntry m)) : Nat) : ℤ) *
      m ≡ 1 [ZMOD (2 : ℤ) ^ 32] :=
    hensel_step (k := 16) (K := 64) (by omega) _ _ _ hi1 (lift_modeq 64 _ m)
  have hj := negstep_modeq 64
    (wmul 64 (wsub 64 2 (wmul 64
      (wmul 64 (wsub 64 2 (wmul 64 (binvertEntry m) m)) (binvertEntry m)) m))
      (wmul 64 (wsub 64 2 (wmul 64 (binvertEntry m) m)) (binvertEntry m))) m
  apply modeq_neg_one_to_nat
  have h1 : ((m * Montgomery.neginv64 m : ℕ) : ℤ) =
      ((Montgomery.neginv64 m : ℕ) : ℤ) * m := by push_cast; ring
  rw [h1]
  exact neg_final (k := 32) (K := 64) (by omega) _ _ _ hi2 hj

/-- Every width dispatch of `neginv` is correct for odd m. -/
theorem neginvOf_spec (W m : Nat) (hW : W = 8 ∨ W = 16 ∨ W = 32 ∨ W = 64)
    (hm : m % 2 = 1) : m * Montgomery.neginvOf W m % 2 ^ W = 2 ^ W - 1 := by
  rcases hW with h | h | h | h <;> subst h <;>
    simp only [Montgomery.neginvOf, if_true, if_false]
  · exact neginv8_spec m hm
  · exact neginv16_spec m hm
  · exact neginv32_spec m hm
  · exact neginv64_spec m hm

/-! ## Handle-level helpers -/

/-- With in-range arguments the two truncations in `transform` vanish. -/
theorem transform_spec (W x m : Nat) (hm : 0 < m) (hmR : m < 2 ^ W)
    (hx : x < 2 ^ W) : Montgomery.transform W x m = x * 2 ^ W % m := by
  unfold Montgomery.transform
  have h2W : 2 ^ (2 * W) = 2 ^ W * 2 ^ W := by rw [two_mul, pow_add]
  have h1 : x * 2 ^ W < 2 ^ (2 * W) := by
    rw [h2W]
    exact mul_lt_mul_of_pos_right hx (by omega)
  rw [Nat.mod_eq_of_lt h1]
  have h2 : x * 2 ^ W % m < m := Nat.mod_lt _ hm
  rw [Nat.mod_eq_of_lt (lt_trans h2 hmR)]

/-- REDC sends any value congruent to `v * R` with `v < m` to `v`. -/
theorem residue_eq (W m minv a v : Nat) (hodd : m % 2 = 1) (hm1 : 1 < m)
    (hmR : m < 2 ^ W) (hminv : m * minv % 2 ^ W = 2 ^ W - 1)
    (ha : a < m * 2 ^ W) (hv : v < m) (hcong : a ≡ v * 2 ^ W [MOD m]) :
    Montgomery.reduce W a m minv = v := by
  obtain ⟨hlt, hc⟩ := reduce_spec W a m minv hodd hm1 hmR hminv ha
  exact cancel_R W m _ v hodd hlt hv (hc.trans hcong)

/-- The Montgomery form of x is congruent to `x * R`. -/
theorem transform_modeq (W x m : Nat) (hm : 0 < m) (hmR : m < 2 ^ W)
    (hx : x < 2 ^ W) : Montgomery.transform W x m ≡ x * 2 ^ W [MOD m] := by
  rw [transform_spec W x m hm hmR hx]
  exact Nat.mod_modEq _ _

/-! ## Claims -/

/-- C1: for width W in 8, 16, 32, 64, odd m at least 3 below 2^W,
minv = neginv(m), and every double-width t below m * 2^W, reduce returns
the unique r below m with r * 2^W congruent to t modulo m, the overflow
branch included in the range of inputs. -/
theorem C1_redc_correct (W m t : Nat) (hW : W = 8 ∨ W = 16 ∨ W = 32 ∨ W = 64)
    (hodd : m % 2 = 1) (hm : 3 ≤ m) (hmR : m < 2 ^ W) (ht : t < m * 2 ^ W) :
    Montgomery.reduce W t m (Montgomery.neginvOf W m) < m ∧
      Montgomery.reduce W t m (Montgomery.neginvOf W m) * 2 ^ W ≡ t [MOD m] ∧
      ∀ r, r < m → r * 2 ^ W ≡ t [MOD m] →
        r = Montgomery.reduce W t m (Montgomery.neginvOf W m) := by
  have hminv := neginvOf_spec W m hW hodd
  obtain ⟨h1, h2⟩ := reduce_spec W t m _ hodd (by omega) hmR hminv ht
  exact ⟨h1, h2, fun r hr hcong => cancel_R W m r _ hodd hr h1 (hcong.trans h2.symm)⟩

/-- Witness for C1 on an input that overflows the double-width adder:
t = 65279 with m = 255 at width 8. -/
theorem C1_redc_correct_witness :
    Montgomery.reduce 8 65279 255 (Montgomery.neginvOf 8 255) = 254 := by
  have h := C1_redc_correct 8 255 65279 (Or.inl rfl) (by norm_num) (by norm_num)
    (by norm_num) (by norm_num)
  exact (h.2.2 254 (by norm_num) (by decide)).symm

/-- C2: the seed table inverts every odd residue modulo 256, and at every
width the Hensel-lifted `neginv(m)` satisfies
m * neginv(m) = -1 modulo 2^W for every odd width-W modulus. -/
theorem C2_neginv_correct :
    (∀ i, i < 128 → BINVERT_TABLE.getD i 0 * (2 * i + 1) % 256 = 1) ∧
      ∀ W m : Nat, (W = 8 ∨ W = 16 ∨ W = 32 ∨ W = 64) → m % 2 = 1 → m < 2 ^ W →
        m * Montgomery.neginvOf W m % 2 ^ W = 2 ^ W - 1 :=
  ⟨binvert_table_correct, fun W m hW hm _ => neginvOf_spec W m hW hm⟩

/-- Witness for C2 at the table entry 1 and at width 64 with m = 7. -/
theorem C2_neginv_correct_witness :
    BINVERT_TABLE.getD 1 0 * (2 * 1 + 1) % 256 = 1 ∧
      7 * Montgomery.neginvOf 64 7 % 2 ^ 64 = 2 ^ 64 - 1 :=
  ⟨C2_neginv_correct.1 1 (by norm_num),
    C2_neginv_correct.2 64 7 (by omega) (by norm_num) (by norm_num)⟩

/-- C3: the modulus-mismatch check never fires.  Evaluated at the failing
input of the claim: handles over the distinct moduli 5 and 7, built by
separate `new` calls (distinct contexts), are combined by every binary
operation without the `ModulusMismatch` panic. -/
theorem C3_mismatch_undetected :
    ((MontgomeryInt.new 8 1 5 0).bind fun x =>
      (MontgomeryInt.new 8 1 7 1).bind fun y =>
        MontgomeryInt.hadd 8 x y).isSome = true ∧
    ((MontgomeryInt.new 8 1 5 0).bind fun x =>
      (MontgomeryInt.new 8 1 7 1).bind fun y =>
        MontgomeryInt.hsub x y).isSome = true ∧
    ((MontgomeryInt.new 8 1 5 0).bind fun x =>
      (MontgomeryInt.new 8 1 7 1).bind fun y =>
        MontgomeryInt.hmul 8 x y).isSome = true ∧
    ((MontgomeryInt.new 8 1 5 0).bind fun x =>
      (MontgomeryInt.new 8 1 7 1).bind fun y =>
        MontgomeryInt.heq x y).isSome = true := by
  decide

/-- C4: evaluation of the engine `add` at the failing input a = 2, b = 3,
m = 5 (both inputs below m, their sum equal to m): the result is m itself,
not a value below m. -/
theorem C4_add_returns_m :
    Montgomery.add 8 2 3 5 = 5 ∧ ¬ Montgomery.add 8 2 3 5 < 5 := by
  decide

/-- C5: evaluation of `pow` at the failing input base = transform(3, 7),
exp = 0, width 8.  The loop returns its raw accumulator 1, whose residue
is 2; the Montgomery form of 1 is 4, with residue 1, so the result does
not represent 3^0 = 1. -/
theorem C5_pow_exponent_zero :
    Montgomery.pow 8 (Montgomery.transform 8 3 7) 0 7 (Montgomery.neginvOf 8 7) = 1 ∧
      Montgomery.reduce 8 1 7 (Montgomery.neginvOf 8 7) = 2 ∧
      Montgomery.transform 8 1 7 = 4 ∧
      Montgomery.reduce 8 4 7 (Montgomery.neginvOf 8 7) = 1 := by
  refine ⟨?_, by decide, by decide, by decide⟩
  simp [Montgomery.pow, Montgomery.powLoop]

/-- C8 counterexample: constructing a handle with the even modulus 4
succeeds, though the claim says construction fails for even moduli. -/
theorem C8_even_modulus_succeeds : (MontgomeryInt.new 8 1 4 0).isSome = true := by
  decide

/-- C8 amended: `new` performs no modulus validation; it fails only for
m = 0 (a division-by-zero panic, not an `InvalidModulus` error) and
succeeds for every other modulus, even ones included. -/
theorem C8_new_no_validation (W x m cid : Nat) :
    (MontgomeryInt.new W x m cid = none ↔ m = 0) ∧
      ((MontgomeryInt.new W x m cid).isSome = true ↔ m ≠ 0) := by
  unfold MontgomeryInt.new
  by_cases h : m = 0 <;> simp [h]

/-- Witness for C8 at m = 4 and m = 0. -/
theorem C8_new_no_validation_witness :
    ((MontgomeryInt.new 8 1 4 0).isSome = true ↔ (4 : Nat) ≠ 0) ∧
      (MontgomeryInt.new 8 1 0 0 = none ↔ (0 : Nat) = 0) :=
  ⟨(C8_new_no_validation 8 1 4 0).2, (C8_new_no_validation 8 1 0 0).1⟩

/-- C10: under the pointer-identity invariant of `Rc` (equal allocation
addresses imply equal contents), the structural modulus comparison only
runs when the moduli are already equal, so the mismatch panic is
unreachable and all four binary operations return results for all
handles. -/
theorem C10_mismatch_panic_unreachable (W : Nat) (x y : MontgomeryInt)
    (hctx : x.ctxId = y.ctxId → x.m = y.m) :
    MontgomeryInt.check_modulus_eq (x.ctxId == y.ctxId) x.m y.m = false ∧
      (MontgomeryInt.hadd W x y).isSome = true ∧
      (MontgomeryInt.hsub x y).isSome = true ∧
      (MontgomeryInt.hmul W x y).isSome = true ∧
      (MontgomeryInt.heq x y).isSome = true := by
  have hc : MontgomeryInt.check_modulus_eq (x.ctxId == y.ctxId) x.m y.m = false := by
    unfold MontgomeryInt.check_modulus_eq
    by_cases h : x.ctxId = y.ctxId
    · have h2 := hctx h
      simp [h, h2]
    · simp [h]
  refine ⟨hc, ?_, ?_, ?_, ?_⟩ <;>
    simp [MontgomeryInt.hadd, MontgomeryInt.hsub, MontgomeryInt.hmul,
      MontgomeryInt.heq, hc]

/-- Witness for C10: two handles sharing a context. -/
theorem C10_mismatch_panic_unreachable_witness :
    (MontgomeryInt.hadd 8 ⟨1, 5, 51, 0⟩ ⟨2, 5, 51, 0⟩).isSome = true :=
  (C10_mismatch_panic_unreachable 8 ⟨1, 5, 51, 0⟩ ⟨2, 5, 51, 0⟩ (fun _ => rfl)).2.1

/-- C6: round-trip through Montgomery form is reduction modulo m. -/
theorem C6_residue_roundtrip (W x m cid : Nat)
    (hW : W = 8 ∨ W = 16 ∨ W = 32 ∨ W = 64) (hodd : m % 2 = 1) (hm : 3 ≤ m)
    (hmR : m < 2 ^ W) (hx : x < 2 ^ W) :
    (MontgomeryInt.new W x m cid).map (MontgomeryInt.residue W) = some (x % m) := by
  have hminv := neginvOf_spec W m hW hodd
  unfold MontgomeryInt.new
  rw [if_neg (by omega : ¬ m = 0)]
  have hres : MontgomeryInt.residue W
      ⟨Montgomery.transform W x m, m, Montgomery.neginvOf W m, cid⟩ = x % m := by
    unfold MontgomeryInt.residue
    show Montgomery.reduce W (Montgomery.transform W x m) m
      (Montgomery.neginvOf W m) = x % m
    apply residue_eq W m _ _ (x % m) hodd (by omega) hmR hminv
    · have h1 : Montgomery.transform W x m < m := by
        rw [transform_spec W x m (by omega) hmR hx]
        exact Nat.mod_lt _ (by omega)
      have h2 : m < m * 2 ^ W := by
        have h3 := mul_lt_mul_of_pos_left (show 1 < 2 ^ W by omega)
          (show 0 < m by omega)
        simpa using h3
      exact lt_trans h1 h2
    · exact Nat.mod_lt _ (by omega)
    · exact (transform_modeq W x m (by omega) hmR hx).trans
        ((Nat.mod_modEq x m).symm.mul_right _)
  simp only [Option.map_some', hres]

/-- Witness for C6 at the spec example: width 8, x = 130, m = 5. -/
theorem C6_residue_roundtrip_witness :
    (MontgomeryInt.new 8 130 5 0).map (MontgomeryInt.residue 8) = some 0 := by
  have h := C6_residue_roundtrip 8 130 5 0 (Or.inl rfl) (by norm_num) (by norm_num)
    (by norm_num) (by norm_num)
  simpa using h

/-- The normalized unsigned modular difference agrees with the integer
remainder of the signed difference. -/
theorem nat_modsub_cast (a b m : Nat) (hm : 0 < m) :
    (((a % m + m - b % m) % m : Nat) : ℤ) = ((a : ℤ) - b) % (m : ℤ) := by
  have hb1 : b % m < m := Nat.mod_lt _ hm
  have h1 : (((a % m + m - b % m) % m : Nat) : ℤ) =
      (((a % m + m - b % m : Nat) : ℤ)) % (m : ℤ) := Int.natCast_mod _ _
  have h2 : ((a % m + m - b % m : Nat) : ℤ) = (a : ℤ) % m + m - (b : ℤ) % m := by
    rw [Nat.cast_sub (by omega)]
    push_cast
    ring
  rw [h1, h2]
  have hha : (a : ℤ) % m ≡ (a : ℤ) [ZMOD (m : ℤ)] := int_mod_modeq _ _
  have hhb : (b : ℤ) % m ≡ (b : ℤ) [ZMOD (m : ℤ)] := int_mod_modeq _ _
  have hm0 : (m : ℤ) ≡ 0 [ZMOD (m : ℤ)] := Int.modEq_iff_dvd.mpr (by simp)
  have h4 := (hha.add hm0).sub hhb
  have h5 : (a : ℤ) + 0 - b = (a : ℤ) - b := by ring
  exact h5 ▸ h4

/-- C7: handle arithmetic realises modular arithmetic on the residues,
subtraction read as the unsigned modular difference. -/
theorem C7_handle_arith (W a b m i j : Nat) (x y : MontgomeryInt)
    (hW : W = 8 ∨ W = 16 ∨ W = 32 ∨ W = 64) (hodd : m % 2 = 1) (hm : 3 ≤ m)
    (hmR : m < 2 ^ W) (ha : a < 2 ^ W) (hb : b < 2 ^ W)
    (hx : MontgomeryInt.new W a m i = some x)
    (hy : MontgomeryInt.new W b m j = some y) :
    (MontgomeryInt.hadd W x y).map (MontgomeryInt.residue W) = some ((a + b) % m) ∧
      (MontgomeryInt.hsub x y).map (fun z => ((MontgomeryInt.residue W z : Nat) : ℤ)) =
        some (((a : ℤ) - b) % (m : ℤ)) ∧
      (MontgomeryInt.hmul W x y).map (MontgomeryInt.residue W) = some (a * b % m) := by
  have hm0 : ¬ m = 0 := by omega
  unfold MontgomeryInt.new at hx hy
  rw [if_neg hm0] at hx hy
  obtain rfl := Option.some.inj hx
  obtain rfl := Option.some.inj hy
  have hminv := neginvOf_spec W m hW hodd
  have hR1 : 1 < 2 ^ W := by omega
  have htA : Montgomery.transform W a m < m := by
    rw [transform_spec W a m (by omega) hmR ha]
    exact Nat.mod_lt _ (by omega)
  have htB : Montgomery.transform W b m < m := by
    rw [transform_spec W b m (by omega) hmR hb]
    exact Nat.mod_lt _ (by omega)
  have htAc := transform_modeq W a m (by omega) hmR ha
  have htBc := transform_modeq W b m (by omega) hmR hb
  set tA := Montgomery.transform W a m with htAdef
  set tB := Montgomery.transform W b m with htBdef
  have hcheck : MontgomeryInt.check_modulus_eq
      (MontgomeryInt.ctxId ⟨tA, m, Montgomery.neginvOf W m, i⟩ ==
        MontgomeryInt.ctxId ⟨tB, m, Montgomery.neginvOf W m, j⟩)
      (MontgomeryInt.m ⟨tA, m, Montgomery.neginvOf W m, i⟩)
      (MontgomeryInt.m ⟨tB, m, Montgomery.neginvOf W m, j⟩) = false := by
    simp [MontgomeryInt.check_modulus_eq]
  have hmlt : m < m * 2 ^ W := by
    have h3 := mul_lt_mul_of_pos_left (show 1 < 2 ^ W by omega)
      (show 0 < m by omega)
    simpa using h3
  refine ⟨?_, ?_, ?_⟩
  · -- addition
    unfold MontgomeryInt.hadd
    rw [hcheck]
    simp only [Bool.false_eq_true, if_false, Option.map_some']
    have haddv : Montgomery.add W tA tB m ≤ m ∧
        Montgomery.add W tA tB m ≡ tA + tB [MOD m] := by
      unfold Montgomery.add
      by_cases hc : m < tA + tB
      · rw [if_pos hc, Nat.mod_eq_of_lt (by omega : tA + tB - m < 2 ^ W)]
        refine ⟨by omega, ?_⟩
        show (tA + tB - m) % m = (tA + tB) % m
        conv_rhs => rw [(by omega : tA + tB = tA + tB - m + m)]
        rw [Nat.add_mod_right]
      · rw [if_neg hc, Nat.mod_eq_of_lt (by omega : tA + tB < 2 ^ W)]
        exact ⟨by omega, Nat.ModEq.refl _⟩
    obtain ⟨hle, hcong⟩ := haddv
    have hres : MontgomeryInt.residue W
        ⟨Montgomery.add W tA tB m, m, Montgomery.neginvOf W m, i⟩ = (a + b) % m := by
      unfold MontgomeryInt.residue
      show Montgomery.reduce W (Montgomery.add W tA tB m) m
        (Montgomery.neginvOf W m) = (a + b) % m
      apply residue_eq W m _ _ ((a + b) % m) hodd (by omega) hmR hminv (by omega)
        (Nat.mod_lt _ (by omega))
      calc Montgomery.add W tA tB m ≡ tA + tB [MOD m] := hcong
        _ ≡ a * 2 ^ W + b * 2 ^ W [MOD m] := htAc.add htBc
        _ = (a + b) * 2 ^ W := by ring
        _ ≡ (a + b) % m * 2 ^ W [MOD m] := (Nat.mod_modEq (a + b) m).symm.mul_right _
    rw [hres]
  · -- subtraction
    unfold MontgomeryInt.hsub
    rw [hcheck]
    simp only [Bool.false_eq_true, if_false, Option.map_some']
    have hsval : Montgomery.sub tA tB m < m ∧
        Montgomery.sub tA tB m + tB ≡ tA [MOD m] := by
      unfold Montgomery.sub
      by_cases hc : tB ≤ tA
      · rw [if_pos hc]
        refine ⟨by omega, ?_⟩
        show (tA - tB + tB) % m = tA % m
        rw [Nat.sub_add_cancel hc]
      · rw [if_neg hc]
        refine ⟨by omega, ?_⟩
        show (m - (tB - tA) + tB) % m = tA % m
        rw [(by omega : m - (tB - tA) + tB = m + tA), Nat.add_mod_left]
    obtain ⟨hslt, hscong⟩ := hsval
    obtain ⟨hrlt, hrc⟩ := reduce_spec W (Montgomery.sub tA tB m) m
      (Montgomery.neginvOf W m) hodd (by omega) hmR hminv (by omega)
    have hnvlt : (a % m + m - b % m) % m < m := Nat.mod_lt _ (by omega)
    have h3 : Montgomery.reduce W (Montgomery.sub tA tB m) m
        (Montgomery.neginvOf W m) * 2 ^ W + tB ≡ tA [MOD m] :=
      (hrc.add_right tB).trans hscong
    have h6 : (a % m + m - b % m) % m + b ≡ a [MOD m] := by
      have hb1 : b % m < m := Nat.mod_lt _ (by omega)
      calc (a % m + m - b % m) % m + b
          ≡ (a % m + m - b % m) + b [MOD m] := (Nat.mod_modEq _ _).add_right b
        _ ≡ (a % m + m - b % m) + b % m [MOD m] :=
          (Nat.ModEq.refl _).add (Nat.mod_modEq b m).symm
        _ = a % m + m := by omega
        _ ≡ a % m [MOD m] := by
          show (a % m + m) % m = a % m % m
          rw [Nat.add_mod_right]
        _ ≡ a [MOD m] := Nat.mod_modEq a m
    have h4 : (a % m + m - b % m) % m * 2 ^ W + tB ≡ tA [MOD m] := by
      calc (a % m + m - b % m) % m * 2 ^ W + tB
          ≡ (a % m + m - b % m) % m * 2 ^ W + b * 2 ^ W [MOD m] :=
          (Nat.ModEq.refl _).add htBc
        _ = ((a % m + m - b % m) % m + b) * 2 ^ W := by ring
        _ ≡ a * 2 ^ W [MOD m] := h6.mul_right _
        _ ≡ tA [MOD m] := htAc.symm
    have h7 := Nat.ModEq.add_right_cancel' tB (h3.trans h4.symm)
    have hres := cancel_R W m _ _ hodd hrlt hnvlt h7
    have := nat_modsub_cast a b m (by omega)
    rw [show MontgomeryInt.residue W
        ⟨Montgomery.sub tA tB m, m, Montgomery.neginvOf W m, i⟩ =
          Montgomery.reduce W (Montgomery.sub tA tB m) m (Montgomery.neginvOf W m)
        from rfl, hres, this]
  · -- multiplication
    unfold MontgomeryInt.hmul
    rw [hcheck]
    simp only [Bool.false_eq_true, if_false, Option.map_some']
    have hprod : tA * tB < m * 2 ^ W := by
      calc tA * tB < m * m := mul_lt_mul'' htA htB (by omega) (by omega)
        _ ≤ m * 2 ^ W := Nat.mul_le_mul_left m (by omega)
    obtain ⟨hslt, hsc⟩ := reduce_spec W (tA * tB) m (Montgomery.neginvOf W m)
      hodd (by omega) hmR hminv hprod
    obtain ⟨hrlt, hrc⟩ := reduce_spec W
      (Montgomery.reduce W (tA * tB) m (Montgomery.neginvOf W m)) m
      (Montgomery.neginvOf W m) hodd (by omega) hmR hminv (by omega)
    have h1 : Montgomery.reduce W
        (Montgomery.reduce W (tA * tB) m (Montgomery.neginvOf W m)) m
        (Montgomery.neginvOf W m) * 2 ^ W * 2 ^ W ≡ tA * tB [MOD m] :=
      (hrc.mul_right (2 ^ W)).trans hsc
    have h2 : tA * tB ≡ a * b % m * 2 ^ W * 2 ^ W [MOD m] := by
      calc tA * tB ≡ a * 2 ^ W * (b * 2 ^ W) [MOD m] := htAc.mul htBc
        _ = a * b * 2 ^ W * 2 ^ W := by ring
        _ ≡ a * b % m * 2 ^ W * 2 ^ W [MOD m] :=
          ((Nat.mod_modEq (a * b) m).symm.mul_right _).mul_right _
    have h3 := Nat.ModEq.cancel_right_of_coprime
      (gcd_two_pow_eq_one W m hodd) (h1.trans h2)
    have hres := cancel_R W m _ _ hodd hrlt (Nat.mod_lt _ (by omega)) h3
    show some (MontgomeryInt.residue W
      ⟨Montgomery.mul W tA tB m (Montgomery.neginvOf W m), m,
        Montgomery.neginvOf W m, i⟩) = some (a * b % m)
    rw [show MontgomeryInt.residue W
        ⟨Montgomery.mul W tA tB m (Montgomery.neginvOf W m), m,
          Montgomery.neginvOf W m, i⟩ =
        Montgomery.reduce W
          (Montgomery.reduce W (tA * tB) m (Montgomery.neginvOf W m)) m
          (Montgomery.neginvOf W m) from rfl, hres]

/-- Witness for C7: a = 5, b = 6, m = 7 at width 8, matching the concrete
handle-multiplication scenario of the spec. -/
theorem C7_handle_arith_witness :
    ((MontgomeryInt.new 8 5 7 0).bind fun x =>
      (MontgomeryInt.new 8 6 7 1).bind fun y =>
        (MontgomeryInt.hmul 8 x y).map (MontgomeryInt.residue 8)) = some 2 := by
  have h := C7_handle_arith 8 5 6 7 0 1
    ⟨Montgomery.transform 8 5 7, 7, Montgomery.neginvOf 8 7, 0⟩
    ⟨Montgomery.transform 8 6 7, 7, Montgomery.neginvOf 8 7, 1⟩
    (Or.inl rfl) (by norm_num) (by norm_num) (by norm_num) (by norm_num)
    (by norm_num) (by rfl) (by rfl)
  exact h.2.2

/-- The loop invariant of the spec's jacobi algorithm: with an odd
modulus, the loop multiplies the accumulated sign by the Jacobi symbol of
its arguments. -/
theorem jacobiLoop_spec (a : Nat) :
    ∀ n r, n % 2 = 1 → jacobiLoop a n r = r * jacobiSym (a : ℤ) n := by
  induction a using Nat.strong_induction_on with
  | _ a ih =>
    intro n r hn
    rw [jacobiLoop.eq_def]
    by_cases ha0 : a = 0
    · subst ha0
      rw [if_pos rfl]
      by_cases hn1 : n = 1
      · subst hn1
        rw [if_pos rfl, jacobiSym.one_right]
        ring
      · rw [if_neg hn1, Nat.cast_zero, jacobiSym.zero_left (by omega : 1 < n)]
        ring
    · rw [if_neg ha0]
      by_cases hae : a % 2 = 0
      · rw [if_pos hae]
        have hdiv : a / 2 < a := Nat.div_lt_self (by omega) one_lt_two
        rw [ih (a / 2) hdiv n (if n % 8 = 3 ∨ n % 8 = 5 then -r else r) hn]
        have hodd : Odd n := Nat.odd_iff.mpr hn
        have ha2 : (a : ℤ) = 2 * ((a / 2 : ℕ) : ℤ) := by omega
        have hmul2 : jacobiSym (a : ℤ) n =
            jacobiSym 2 n * jacobiSym ((a / 2 : ℕ) : ℤ) n := by
          rw [ha2, jacobiSym.mul_left]
        have h2n : jacobiSym 2 n = if n % 8 = 3 ∨ n % 8 = 5 then -1 else 1 := by
          rw [jacobiSym.at_two hodd, ZMod.χ₈_nat_eq_if_mod_eight]
          have h2 : ¬ n % 2 = 0 := by omega
          by_cases h35 : n % 8 = 3 ∨ n % 8 = 5
          · have h17 : ¬ (n % 8 = 1 ∨ n % 8 = 7) := by omega
            simp [h2, h17, h35]
          · have h17 : n % 8 = 1 ∨ n % 8 = 7 := by omega
            simp [h2, h17, h35]
        by_cases h35 : n % 8 = 3 ∨ n % 8 = 5
        · rw [if_pos h35, hmul2, h2n, if_pos h35]; ring
        · rw [if_neg h35, hmul2, h2n, if_neg h35]; ring
      · rw [if_neg hae]
        have hao : a % 2 = 1 := by omega
        have hlt : n % a < a := Nat.mod_lt _ (by omega)
        rw [ih (n % a) hlt a (if a % 4 = 3 ∧ n % 4 = 3 then -r else r) hao]
        have hmodl : jacobiSym ((n % a : ℕ) : ℤ) a = jacobiSym (n : ℤ) a := by
          rw [Int.natCast_mod]
          exact (jacobiSym.mod_left (n : ℤ) a).symm
        have hrec := jacobiSym.quadratic_reciprocity_if hao hn
        by_cases hcond : a % 4 = 3 ∧ n % 4 = 3
        · rw [if_pos hcond, hmodl, ← hrec, if_pos hcond]; ring
        · rw [if_neg hcond, hmodl, ← hrec, if_neg hcond]

/-- C9: the modelled `jacobi` fails exactly for even (or zero) n, and for
odd positive n returns the mathematical Jacobi symbol, a value among -1,
0, 1; evaluated on the three examples of the claim. -/
theorem C9_jacobi_correct :
    (∀ a n : Nat, jacobi a n = none ↔ (n % 2 = 0 ∨ n = 0)) ∧
      (∀ a n : Nat, n % 2 = 1 → 0 < n →
        jacobi a n = some (jacobiSym (a : ℤ) n) ∧
          (jacobiSym (a : ℤ) n = -1 ∨ jacobiSym (a : ℤ) n = 0 ∨
            jacobiSym (a : ℤ) n = 1)) ∧
      jacobi 29 9 = some 1 ∧ jacobi 11 33 = some 0 ∧
        jacobi 19 29 = some (-1) := by
  refine ⟨?_, ?_, ?_, ?_, ?_⟩
  · intro a n
    unfold jacobi
    by_cases h : n % 2 = 0
    · simp [h]
    · have h0 : ¬ n = 0 := by omega
      simp [h, h0]
  · intro a n hn hpos
    constructor
    · unfold jacobi
      rw [if_neg (by omega), jacobiLoop_spec (a % n) n 1 hn, one_mul]
      congr 1
      rw [Int.natCast_mod]
      exact (jacobiSym.mod_left (a : ℤ) n).symm
    · rcases jacobiSym.trichotomy (a : ℤ) n with h | h | h
      · right; left; exact h
      · right; right; exact h
      · left; exact h
  · simp [jacobi, jacobiLoop]
  · simp [jacobi, jacobiLoop]
  · simp [jacobi, jacobiLoop]

/-- Witness for C9 at a = 2, n = 3 and at the even modulus n = 6. -/
theorem C9_jacobi_correct_witness :
    jacobi 2 3 = some (jacobiSym ((2 : Nat) : ℤ) 3) ∧ jacobi 4 6 = none :=
  ⟨(C9_jacobi_correct.2.1 2 3 (by norm_num) (by norm_num)).1,
    (C9_jacobi_correct.1 4 6).mpr (Or.inl (by norm_num))⟩
